import Mathlib

/-!
Verification of the e18e-tools dependent-report CLI.

Strings from the TypeScript source are modelled as `List Char`.
The embedding follows `src/index.ts` (the simplified fork); the
corresponding functions of `src/getDependents.ts` are identical in
the parts modelled here.
-/

namespace E18e

/-- JavaScript `s.split(sep)` for a single-character separator:
splits into the (possibly empty) substrings between occurrences.
`"".split(sep) = [""]`. -/
def jsSplit (sep : Char) : List Char → List (List Char)
  | [] => [[]]
  | c :: cs =>
    let r := jsSplit sep cs
    if c = sep then [] :: r
    else
      match r with
      | [] => [[c]]
      | h :: t => (c :: h) :: t

/-- JavaScript `s.lastIndexOf(c)`: index of the last occurrence of `c`,
`-1` when absent. -/
def lastIndexOf (sep : Char) : List Char → Int
  | [] => -1
  | c :: cs =>
    let r := lastIndexOf sep cs
    if r ≥ 0 then r + 1
    else if c = sep then 0
    else -1

/-- `src/index.ts` `getPackageNameAndVersion` (identical to
`getnameAndVersion` in `src/getDependents.ts`):
destructures `inputPackage.split("@")` into `[packageName, version]`,
then for scoped packages (leading `@`) re-splits at the last `@`
via `lastIndexOf`/`slice`. -/
def getPackageNameAndVersion (inputPackage : List Char) :
    List Char × Option (List Char) :=
  let isScoped := inputPackage.head? = some '@'
  let parts := jsSplit '@' inputPackage
  let packageName := parts.headD []
  let version := parts[1]?
  if isScoped then
    let atPosition := lastIndexOf '@' inputPackage
    if atPosition = 0 then
      (inputPackage, none)
    else
      (inputPackage.take atPosition.toNat,
       some (inputPackage.drop (atPosition.toNat + 1)))
  else
    (packageName, version)

/-- The `Results` type of `src/index.ts`: one scored dependent node.
Field order follows the TypeScript declaration. Download and traffic
counts are non-negative integers (`downloads: number ≥ 0`,
`traffic = downloads * size`). -/
structure Results where
  name : List Char
  downloads : Nat
  traffic : Nat
  isDevDependency : Bool
  children : List Results
  version : List Char

mutual

/-- `accumulateStats` from `src/index.ts`:
`result.children.reduce((a, b) => a + accumulateStats(b), 0) + result.downloads`. -/
def accumulateStats : Results → Nat
  | ⟨_, downloads, _, _, children, _⟩ => accReduce children 0 + downloads

/-- The `reduce((a, b) => a + accumulateStats(b), acc)` loop. -/
def accReduce : List Results → Nat → Nat
  | [], acc => acc
  | c :: cs, acc => accReduce cs (acc + accumulateStats c)

end

/-- Stable insertion of a node into a downloads-descending sorted list:
the earlier node stays in front of later nodes with equal downloads. -/
def insertDesc (x : Results) : List Results → List Results
  | [] => [x]
  | y :: ys =>
    if y.downloads ≤ x.downloads then x :: y :: ys
    else y :: insertDesc x ys

/-- `results.sort((a, b) => b.downloads - a.downloads)`:
JavaScript `Array.prototype.sort` is guaranteed stable, so the call is a
stable sort by `downloads` descending, modelled as stable insertion sort. -/
def sortResults : List Results → List Results
  | [] => []
  | x :: xs => insertDesc x (sortResults xs)

/-- `s` begins with `sub` (char-list prefix test). -/
def beginsWith : List Char → List Char → Bool
  | [], _ => true
  | _ :: _, [] => false
  | a :: as, b :: bs => a = b && beginsWith as bs

/-- JavaScript `s.includes(sub)`: `sub` occurs as a contiguous substring
of `s`. `hasSub [] s = true` for every `s`. -/
def hasSub (sub : List Char) : List Char → Bool
  | [] => beginsWith sub []
  | c :: cs => beginsWith sub (c :: cs) || hasSub sub cs

/-- `filterExcludes` from `src/index.ts`:
`argv.exclude?.split(",").every((ex) => !pkg.name.includes(ex)) ?? true`. -/
def filterExcludes (exclude : Option (List Char)) (name : List Char) : Bool :=
  match exclude with
  | none => true
  | some e => (jsSplit ',' e).all (fun ex => !(hasSub ex name))

/-- The CLI options of `src/index.ts` that the modelled pipeline reads.
`number`, `recursive` and `depths` are non-negative integers. -/
structure Args where
  number : Nat
  exclude : Option (List Char)
  dev : Bool
  list : Bool
  recursive : Nat
  depths : Nat
  accumulate : Bool

/-- The part of `NpmPackageInfo` that `main` reads:
`version` and `dist?.size`. -/
structure PkgInfo where
  version : List Char
  distSize : Option Nat

/-- One normalized dependent row: `value = \x7b name, version \x7d`
(the dev view's bare-string rows are remapped to this shape inside
`fetchDependents`). -/
structure Edge where
  name : List Char
  version : List Char
  deriving DecidableEq

/-- The external collaborators of `main`, as oracles:
`pkgInfo name version` is `fetchPackageInfo` (`none` on any non-2xx or
transport failure), `dependents dev name` the normalized rows of
`fetchDependents`, `downloads` the bulk download-stats mapping (absent
names are `none`), `satisfies actual range` the `semver.satisfies`
library call. -/
structure Env where
  pkgInfo : List Char → List Char → Option PkgInfo
  dependents : Bool → List Char → List Edge
  downloads : List Char → Option Nat
  satisfies : List Char → List Char → Bool

/-- JavaScript default parameter of `fetchPackageInfo(name, version = "latest")`:
only `undefined` triggers the default, an empty string is passed through. -/
def versionOrLatest : Option (List Char) → List Char
  | none => "latest".data
  | some v => v

/-- JavaScript falsiness of the parsed `version` (string or undefined):
`undefined` and the empty string are falsy. -/
def versionFalsy : Option (List Char) → Bool
  | none => true
  | some v => v.isEmpty

/-- One entry of the `results` construction in `main`:
`downloads = downloadStats[dep.value.name] ?? 0` and
`traffic = downloads * (packageInfo.dist?.size ?? 0)`; `size` is the
already-defaulted `dist?.size ?? 0` of the resolved parent package. -/
def buildNode (stats : List Char → Option Nat) (size : Nat) (dev : Bool)
    (dep : Edge) : Results :=
  let downloads := (stats dep.name).getD 0
  { name := dep.name, downloads, traffic := downloads * size,
    isDevDependency := dev, children := [], version := dep.version }

/-- The accumulate-mode mutation of one top-level node in `main`:
`downloads = accumulateStats(result)`, `traffic = downloads * size` with
the same `packageInfo.dist?.size ?? 0` multiplier used when scoring, and
`children = []`. -/
def accNode (size : Nat) (r : Results) : Results :=
  let d := accumulateStats r
  { r with downloads := d, traffic := d * size, children := [] }

/-- The whole top-level accumulation pass of `main`: mutate every top
node with `accNode`, then `topResults.sort((a, b) => b.downloads - a.downloads)`. -/
def accPass (size : Nat) (l : List Results) : List Results :=
  sortResults (l.map (accNode size))

/-- The selection applied by `printOutput` before rendering rows:
`results.filter(filterExcludes).slice(0, argv.number)
        .slice(0, argv.depths ? argv.recursive || Infinity : Infinity)`. -/
def displaySelect (a : Args) (results : List Results) : List Results :=
  let l := (results.filter (fun r => filterExcludes a.exclude r.name)).take a.number
  if a.depths ≠ 0 then
    if a.recursive ≠ 0 then l.take a.recursive else l
  else l

/-- The recursion selection in `main`:
`results.filter(filterExcludes).slice(0, argv.recursive)`. -/
def recursionSelect (a : Args) (results : List Results) : List Results :=
  (results.filter (fun r => filterExcludes a.exclude r.name)).take a.recursive

/-- The version-filtered dependent list built in `main`: dependents of
`nv.1`, kept when no (truthy) version was requested or when
`semver.satisfies(actualVersion, dependent.value.version)` holds. -/
def filteredDependents (env : Env) (a : Args) (info : PkgInfo)
    (nv : List Char × Option (List Char)) : List Edge :=
  (env.dependents a.dev nv.1).filter (fun d =>
    versionFalsy nv.2 || env.satisfies info.version d.version)

/-- The sorted scored node list `main` builds at one level before
recursion and output: filtered dependents joined with the download-stats
mapping and stable-sorted by downloads descending. -/
def scoredNodes (env : Env) (a : Args) (info : PkgInfo)
    (nv : List Char × Option (List Char)) : List Results :=
  sortResults ((filteredDependents env a info nv).map
    (buildNode env.downloads (info.distSize.getD 0) a.dev))

/-- Observable outcome of one `main(inputPackage, depths)` invocation:
`exited code` for `process.exit` (no argument means code `0`),
`listed vals` for the `--list` branch (one `console.log(d.value)` per
row), `done top` for the top-level call that renders `top`, and
`sub top` for a recursive call returning `top` to its parent. -/
inductive MainOut where
  | exited (code : Nat)
  | listed (vals : List Edge)
  | done (top : List Results)
  | sub (top : List Results)

/-- The list a recursive call contributes as `r.children`
(`r.children = recursiveResults!`). Reachable recursive calls return
`sub`; the remaining cases are unreachable and default to `[]`. -/
def childrenOf : MainOut → List Results
  | .sub l => l
  | .done l => l
  | _ => []

/-- Shallow embedding of `main(inputPackage, depths)` from `src/index.ts`:
parse the input, resolve the package (failure: return `[]` inside
recursion when `argv.recursive && argv.depths !== depths`, else
`process.exit()`), fetch and version-filter dependents, handle `--list`,
score and stable-sort nodes, expand the recursion selection when
`argv.recursive && depths`, and at the top level (`depths === argv.depths`)
optionally run the accumulation pass before rendering. -/
def mainModel (env : Env) (a : Args) : Nat → List Char → MainOut
  | depths, inputPackage =>
    let nv := getPackageNameAndVersion inputPackage
    match env.pkgInfo nv.1 (versionOrLatest nv.2) with
    | none =>
      if a.recursive ≠ 0 ∧ a.depths ≠ depths then .sub [] else .exited 0
    | some packageInfo =>
      if a.list then .listed (filteredDependents env a packageInfo nv)
      else
        let size := packageInfo.distSize.getD 0
        let results := scoredNodes env a packageInfo nv
        let topResults :=
          match depths with
          | 0 => results
          | Nat.succ d =>
            if a.recursive ≠ 0 then
              (recursionSelect a results).map
                (fun r => { r with children := childrenOf (mainModel env a d r.name) })
            else results
        if depths ≠ a.depths then .sub topResults
        else if a.accumulate then .done (accPass size topResults)
        else .done topResults

/-- The `topResults` list of one successful `main` level: the scored
nodes, with the recursion selection expanded into children when
`argv.recursive && depths`. -/
def topResultsAt (env : Env) (a : Args) (info : PkgInfo) (depths : Nat)
    (nv : List Char × Option (List Char)) : List Results :=
  let results := scoredNodes env a info nv
  match depths with
  | 0 => results
  | Nat.succ d =>
    if a.recursive ≠ 0 then
      (recursionSelect a results).map
        (fun r => { r with children := childrenOf (mainModel env a d r.name) })
    else results

/-- Concrete test environment: one resolvable package `pkg`
(version 1.0.0, dist size 4) whose dependents are `foo`
(5 downloads in the stats mapping) and `bar` (absent from the mapping). -/
def envW : Env where
  pkgInfo := fun n _ => if n = "pkg".data then some ⟨"1.0.0".data, some 4⟩ else none
  dependents := fun _ _ => [⟨"foo".data, "^1.0.0".data⟩, ⟨"bar".data, "*".data⟩]
  downloads := fun n => if n = "foo".data then some 5 else none
  satisfies := fun _ _ => true

/-- Environment in which every registry resolution fails. -/
def envFail : Env where
  pkgInfo := fun _ _ => none
  dependents := fun _ _ => []
  downloads := fun _ => none
  satisfies := fun _ _ => true

/-- Concrete arguments: accumulate mode at depth 1. -/
def argsW : Args := ⟨200, none, false, false, 3, 1, true⟩

/-- Concrete arguments: the `--list` flag set. -/
def argsL : Args := ⟨200, none, false, true, 3, 0, false⟩

/-- Concrete arguments: display count 2, recursion width 5, depth 1. -/
def argsT : Args := ⟨2, none, false, false, 5, 1, false⟩

/-- Six childless nodes, all eligible (no exclude filter active). -/
def sixNodes : List Results :=
  [⟨"n1".data, 6, 0, false, [], "".data⟩,
   ⟨"n2".data, 5, 0, false, [], "".data⟩,
   ⟨"n3".data, 4, 0, false, [], "".data⟩,
   ⟨"n4".data, 3, 0, false, [], "".data⟩,
   ⟨"n5".data, 2, 0, false, [], "".data⟩,
   ⟨"n6".data, 1, 0, false, [], "".data⟩]

/-! ### Helper lemmas: accumulation -/

theorem accReduce_eq (cs : List Results) (acc : Nat) :
    accReduce cs acc = acc + (cs.map accumulateStats).sum := by
  induction cs generalizing acc with
  | nil => simp [accReduce]
  | cons c cs ih => simp [accReduce, ih]; omega

theorem accumulateStats_eq (r : Results) :
    accumulateStats r = r.downloads + (r.children.map accumulateStats).sum := by
  cases r with
  | mk name downloads traffic isDev children version =>
    simp [accumulateStats, accReduce_eq]
    omega

theorem accumulateStats_of_children_nil (r : Results) (h : r.children = []) :
    accumulateStats r = r.downloads := by
  rw [accumulateStats_eq, h]; simp

/-! ### Helper lemmas: sorting -/

/-- Downloads-descending sortedness of a node list. -/
def sortedDesc (l : List Results) : Prop :=
  l.Pairwise (fun x y => y.downloads ≤ x.downloads)

theorem insertDesc_perm (x : Results) (l : List Results) :
    (insertDesc x l).Perm (x :: l) := by
  induction l with
  | nil => simp [insertDesc]
  | cons y ys ih =>
    simp only [insertDesc]
    split
    · exact List.Perm.refl _
    · exact (ih.cons y).trans (List.Perm.swap x y ys)

theorem sortResults_perm (l : List Results) : (sortResults l).Perm l := by
  induction l with
  | nil => simp [sortResults]
  | cons x xs ih => exact (insertDesc_perm x (sortResults xs)).trans (ih.cons x)

theorem insertDesc_sorted (x : Results) :
    ∀ l, sortedDesc l → sortedDesc (insertDesc x l)
  | [], _ => by simp [insertDesc, sortedDesc]
  | y :: ys, h => by
    rw [sortedDesc, List.pairwise_cons] at h
    obtain ⟨hy, hys⟩ := h
    simp only [insertDesc]
    split
    case isTrue hle =>
      rw [sortedDesc, List.pairwise_cons]
      refine ⟨fun z hz => ?_, ?_⟩
      · rcases List.mem_cons.mp hz with rfl | hz
        · exact hle
        · exact le_trans (hy z hz) hle
      · rw [List.pairwise_cons]; exact ⟨hy, hys⟩
    case isFalse hlt =>
      rw [sortedDesc, List.pairwise_cons]
      refine ⟨fun z hz => ?_, insertDesc_sorted x ys hys⟩
      rcases List.mem_cons.mp ((insertDesc_perm x ys).mem_iff.mp hz) with rfl | hz'
      · omega
      · exact hy z hz'

theorem sortResults_sorted (l : List Results) : sortedDesc (sortResults l) := by
  induction l with
  | nil => simp [sortResults, sortedDesc]
  | cons x xs ih => exact insertDesc_sorted x _ ih

theorem filter_insertDesc (k : Nat) (x : Results) :
    ∀ l, (insertDesc x l).filter (fun r => r.downloads == k) =
      (x :: l).filter (fun r => r.downloads == k)
  | [] => rfl
  | y :: ys => by
    simp only [insertDesc]
    split
    case isTrue hle => rfl
    case isFalse hlt =>
      by_cases hx : x.downloads = k
      · have hy : ¬y.downloads = k := by omega
        simp [List.filter_cons, filter_insertDesc k x ys, hx, hy]
      · simp [List.filter_cons, filter_insertDesc k x ys, hx]

theorem sortResults_filter_eq (k : Nat) (l : List Results) :
    (sortResults l).filter (fun r => r.downloads == k) =
    l.filter (fun r => r.downloads == k) := by
  induction l with
  | nil => rfl
  | cons x xs ih =>
    rw [sortResults, filter_insertDesc]
    simp [List.filter_cons, ih]

theorem sortResults_of_sorted : ∀ l, sortedDesc l → sortResults l = l
  | [], _ => rfl
  | x :: xs, h => by
    rw [sortedDesc, List.pairwise_cons] at h
    obtain ⟨hx, hxs⟩ := h
    rw [sortResults, sortResults_of_sorted xs hxs]
    cases xs with
    | nil => rfl
    | cons y ys =>
      simp only [insertDesc]
      rw [if_pos (hx y (List.mem_cons_self y ys))]

/-! ### Helper lemmas: the accumulation pass -/

theorem accNode_children (size : Nat) (r : Results) : (accNode size r).children = [] := rfl

theorem accNode_downloads (size : Nat) (r : Results) :
    (accNode size r).downloads = accumulateStats r := rfl

theorem accNode_idem (size : Nat) (r : Results) :
    accNode size (accNode size r) = accNode size r := by
  cases r with
  | mk name downloads traffic isDev children version =>
    simp [accNode, accumulateStats, accReduce]

theorem map_id_of_mem {f : Results → Results} :
    ∀ l : List Results, (∀ x ∈ l, f x = x) → l.map f = l
  | [], _ => rfl
  | x :: xs, h => by
    rw [List.map_cons, h x (List.mem_cons_self x xs),
      map_id_of_mem xs (fun y hy => h y (List.mem_cons_of_mem x hy))]

theorem accPass_map_mem (size : Nat) (l : List Results) :
    ∀ n ∈ accPass size l, ∃ orig ∈ l, n = accNode size orig := by
  intro n hn
  rw [accPass] at hn
  have hm : n ∈ l.map (accNode size) := (sortResults_perm _).mem_iff.mp hn
  rcases List.mem_map.mp hm with ⟨orig, ho, rfl⟩
  exact ⟨orig, ho, rfl⟩

theorem accPass_spec (size : Nat) (l : List Results) :
    (∀ n ∈ accPass size l, n.children = [] ∧ n.traffic = n.downloads * size ∧
      ∃ orig ∈ l, n.downloads = accumulateStats orig) ∧
    sortedDesc (accPass size l) := by
  constructor
  · intro n hn
    rcases accPass_map_mem size l n hn with ⟨orig, ho, rfl⟩
    exact ⟨rfl, rfl, orig, ho, rfl⟩
  · exact sortResults_sorted _

/-! ### Helper lemmas: `mainModel` -/

theorem filteredDependents_acc (env : Env) (a : Args) (b : Bool) (info : PkgInfo)
    (nv : List Char × Option (List Char)) :
    filteredDependents env { a with accumulate := b } info nv =
    filteredDependents env a info nv := rfl

theorem scoredNodes_acc (env : Env) (a : Args) (b : Bool) (info : PkgInfo)
    (nv : List Char × Option (List Char)) :
    scoredNodes env { a with accumulate := b } info nv =
    scoredNodes env a info nv := rfl

theorem recursionSelect_acc (a : Args) (b : Bool) (results : List Results) :
    recursionSelect { a with accumulate := b } results =
    recursionSelect a results := rfl

set_option maxRecDepth 4000 in
theorem mainModel_acc_insensitive (env : Env) (a : Args) (b₁ b₂ : Bool) :
    ∀ d, d < a.depths → ∀ inp,
      mainModel env { a with accumulate := b₁ } d inp =
      mainModel env { a with accumulate := b₂ } d inp := by
  intro d
  induction d using Nat.strong_induction_on with
  | _ d ih =>
    intro hd inp
    have hne : d ≠ a.depths := Nat.ne_of_lt hd
    conv_lhs => rw [mainModel]
    conv_rhs => rw [mainModel]
    cases hpkg : env.pkgInfo (getPackageNameAndVersion inp).1
        (versionOrLatest (getPackageNameAndVersion inp).2) with
    | none => rfl
    | some info =>
      simp only [hne, ne_eq, not_false_eq_true, if_true, if_false]
      cases d with
      | zero => rfl
      | succ d =>
        have hrec : ∀ inp',
            mainModel env { a with accumulate := b₁ } d inp' =
            mainModel env { a with accumulate := b₂ } d inp' :=
          fun inp' => ih d (Nat.lt_succ_self d)
            (lt_trans (Nat.lt_succ_self d) hd) inp'
        simp [hrec, hne, filteredDependents_acc, scoredNodes_acc, recursionSelect_acc]

/-- Unfolding of a successful, non-`--list` `main` invocation: recursive
calls return `sub topResults`; the top-level call renders `topResults`,
running the accumulation pass first when the flag is set. -/
theorem mainModel_some (env : Env) (a : Args) (depths : Nat) (input : List Char)
    (info : PkgInfo)
    (hinfo : env.pkgInfo (getPackageNameAndVersion input).1
      (versionOrLatest (getPackageNameAndVersion input).2) = some info)
    (hlist : a.list = false) :
    mainModel env a depths input =
      if depths ≠ a.depths then
        .sub (topResultsAt env a info depths (getPackageNameAndVersion input))
      else if a.accumulate then
        .done (accPass (info.distSize.getD 0)
          (topResultsAt env a info depths (getPackageNameAndVersion input)))
      else
        .done (topResultsAt env a info depths (getPackageNameAndVersion input)) := by
  conv_lhs => rw [mainModel]
  simp only [hinfo, hlist, topResultsAt, Bool.false_eq_true, if_false]

/-! ### Helper lemmas: strings -/

theorem jsSplit_ne_nil (sep : Char) : ∀ s, jsSplit sep s ≠ []
  | [] => by simp [jsSplit]
  | c :: cs => by
    simp only [jsSplit]
    split
    · simp
    · cases h : jsSplit sep cs <;> simp

theorem jsSplit_head (sep : Char) :
    ∀ s : List Char, (jsSplit sep s).headD [] = s.takeWhile (fun c => c != sep)
  | [] => rfl
  | c :: cs => by
    simp only [jsSplit]
    by_cases hc : c = sep
    · subst hc
      simp [List.takeWhile]
    · have hbne : (c != sep) = true := by simp [bne_iff_ne, hc]
      cases h : jsSplit sep cs with
      | nil => exact absurd h (jsSplit_ne_nil sep cs)
      | cons hd tl =>
        have ih := jsSplit_head sep cs
        rw [h] at ih
        simp only [List.headD_cons] at ih
        simp [hc, List.takeWhile, ih, hbne]

theorem jsSplit_second (sep : Char) :
    ∀ s : List Char, (jsSplit sep s)[1]? =
      if sep ∈ s then
        some (((s.dropWhile (fun c => c != sep)).tail).takeWhile (fun c => c != sep))
      else none
  | [] => rfl
  | c :: cs => by
    simp only [jsSplit]
    by_cases hc : c = sep
    · subst hc
      cases h : jsSplit c cs with
      | nil => exact absurd h (jsSplit_ne_nil c cs)
      | cons hd tl =>
        have ih := jsSplit_head c cs
        rw [h] at ih
        simp only [List.headD_cons] at ih
        simp [List.dropWhile, ih]
    · have hbne : (c != sep) = true := by simp [bne_iff_ne, hc]
      have hsc : ¬sep = c := fun h' => hc h'.symm
      cases h : jsSplit sep cs with
      | nil => exact absurd h (jsSplit_ne_nil sep cs)
      | cons hd tl =>
        have ih := jsSplit_second sep cs
        rw [h] at ih
        simp only [List.getElem?_cons_succ] at ih
        rw [if_neg hc]
        simp [List.mem_cons, hsc, List.dropWhile, hbne, ih]

theorem lastIndexOf_spec (sep : Char) :
    ∀ s : List Char,
      (sep ∉ s → lastIndexOf sep s = -1) ∧
      (sep ∈ s → ∃ k : Nat, lastIndexOf sep s = (k : Int) ∧
        s = s.take k ++ sep :: s.drop (k + 1) ∧ sep ∉ s.drop (k + 1))
  | [] => ⟨fun _ => rfl, fun h => absurd h (List.not_mem_nil sep)⟩
  | c :: cs => by
    obtain ⟨ih1, ih2⟩ := lastIndexOf_spec sep cs
    by_cases hcs : sep ∈ cs
    · obtain ⟨k, hk, hdec, hnot⟩ := ih2 hcs
      constructor
      · intro h
        exact absurd (List.mem_cons_of_mem c hcs) h
      · intro _
        refine ⟨k + 1, ?_, ?_, ?_⟩
        · simp only [lastIndexOf, hk]
          have : (0 : Int) ≤ (k : Int) := Int.ofNat_nonneg k
          rw [if_pos (by omega)]
          push_cast
          ring
        · simp only [List.take_succ_cons, List.drop_succ_cons]
          exact congrArg (c :: ·) hdec
        · simpa using hnot
    · have hr : lastIndexOf sep cs = -1 := ih1 hcs
      by_cases hc : c = sep
      · subst hc
        constructor
        · intro h
          exact absurd (List.mem_cons_self c cs) h
        · intro _
          refine ⟨0, ?_, ?_, ?_⟩
          · simp [lastIndexOf, hr]
          · simp
          · simpa using hcs
      · constructor
        · intro _
          simp [lastIndexOf, hr, hc]
        · intro h
          rcases List.mem_cons.mp h with h' | h'
          · exact absurd h'.symm hc
          · exact absurd h' hcs

theorem hasSub_nil (s : List Char) : hasSub [] s = true := by
  cases s <;> rfl

/-! ### Claim theorems (first batch) -/

/-- C1: `accumulateStats node` equals `node.downloads` plus the sum of
`accumulateStats child` over the node's children; a node with
downloads 10 and two childless children with downloads 3 and 7
accumulates to 20, and a childless node accumulates to exactly its own
downloads. -/
theorem accumulateStats_correct :
    (∀ r : Results, accumulateStats r =
      r.downloads + (r.children.map accumulateStats).sum) ∧
    accumulateStats ⟨"p".data, 10, 0, false,
      [⟨"a".data, 3, 0, false, [], "".data⟩,
       ⟨"b".data, 7, 0, false, [], "".data⟩], "".data⟩ = 20 ∧
    (∀ r : Results, r.children = [] → accumulateStats r = r.downloads) :=
  ⟨accumulateStats_eq, by rfl, accumulateStats_of_children_nil⟩

/-- Witness for C1: the childless-node clause applied at a concrete node. -/
theorem accumulateStats_correct_witness :
    accumulateStats ⟨"x".data, 4, 0, false, [], "".data⟩ = 4 :=
  accumulateStats_correct.2.2 ⟨"x".data, 4, 0, false, [], "".data⟩ rfl

/-- C3: the Tree Builder's `results.sort((a, b) => b.downloads - a.downloads)`
is a stable sort by downloads descending: output sorted descending, a
permutation of the input, nodes of any fixed download count keep their
fetch order, and the fetch order [5, 100, 5, 20] sorts to
[100, 20, 5, 5] with the two 5-download nodes in original order. -/
theorem sortResults_spec :
    (∀ l, sortedDesc (sortResults l)) ∧
    (∀ l, (sortResults l).Perm l) ∧
    (∀ l k, (sortResults l).filter (fun r => r.downloads == k) =
      l.filter (fun r => r.downloads == k)) ∧
    (sortResults [⟨"a".data, 5, 0, false, [], "".data⟩,
                  ⟨"b".data, 100, 0, false, [], "".data⟩,
                  ⟨"c".data, 5, 0, false, [], "".data⟩,
                  ⟨"d".data, 20, 0, false, [], "".data⟩]).map
        (fun r => (r.name, r.downloads)) =
      [("b".data, 100), ("d".data, 20), ("a".data, 5), ("c".data, 5)] :=
  ⟨sortResults_sorted, sortResults_perm,
   fun l k => sortResults_filter_eq k l, by rfl⟩

/-- C10: the top-level accumulation pass (roll up downloads, recompute
traffic with the same multiplier, clear children, re-sort descending) is
idempotent. -/
theorem accPass_idempotent (size : Nat) (l : List Results) :
    accPass size (accPass size l) = accPass size l := by
  have hmap : (accPass size l).map (accNode size) = accPass size l := by
    apply map_id_of_mem
    intro x hx
    rcases accPass_map_mem size l x hx with ⟨orig, _, rfl⟩
    exact accNode_idem size orig
  rw [accPass, hmap]
  exact sortResults_of_sorted _ (sortResults_sorted _)

/-- C2: with accumulate mode on, the top-level call applies the
accumulation pass to its top-level node list: afterwards every node's
children are cleared, its traffic is its new downloads times the
resolved parent package's `dist?.size ?? 0` (the scoring multiplier),
its downloads are the rolled-up total of some pre-pass node, and the
list is sorted by downloads descending; recursive calls
(`depths < argv.depths`) are unaffected by the accumulate flag. -/
theorem accumulate_top_level (env : Env) (a : Args) (input : List Char)
    (info : PkgInfo)
    (hinfo : env.pkgInfo (getPackageNameAndVersion input).1
      (versionOrLatest (getPackageNameAndVersion input).2) = some info)
    (hlist : a.list = false) (hacc : a.accumulate = true) :
    ∃ pre, mainModel env a a.depths input =
        .done (accPass (info.distSize.getD 0) pre) ∧
      (∀ n ∈ accPass (info.distSize.getD 0) pre, n.children = [] ∧
        n.traffic = n.downloads * info.distSize.getD 0 ∧
        ∃ orig ∈ pre, n.downloads = accumulateStats orig) ∧
      sortedDesc (accPass (info.distSize.getD 0) pre) ∧
      (∀ d, d < a.depths → ∀ inp b₁ b₂,
        mainModel env { a with accumulate := b₁ } d inp =
        mainModel env { a with accumulate := b₂ } d inp) := by
  refine ⟨topResultsAt env a info a.depths (getPackageNameAndVersion input), ?_,
    (accPass_spec _ _).1, (accPass_spec _ _).2,
    fun d hd inp b₁ b₂ => mainModel_acc_insensitive env a b₁ b₂ d hd inp⟩
  rw [mainModel_some env a a.depths input info hinfo hlist]
  simp [hacc]

/-- Witness for C2 at the concrete environment `envW`. -/
theorem accumulate_top_level_witness :
    ∃ pre, mainModel envW argsW 1 "pkg".data = .done (accPass 4 pre) ∧
      (∀ n ∈ accPass 4 pre, n.children = [] ∧ n.traffic = n.downloads * 4 ∧
        ∃ orig ∈ pre, n.downloads = accumulateStats orig) ∧
      sortedDesc (accPass 4 pre) ∧
      (∀ d, d < 1 → ∀ inp b₁ b₂,
        mainModel envW { argsW with accumulate := b₁ } d inp =
        mainModel envW { argsW with accumulate := b₂ } d inp) :=
  accumulate_top_level envW argsW "pkg".data ⟨"1.0.0".data, some 4⟩ rfl rfl rfl

/-- C4 counterexample: at the top level (`depths = argv.depths`) a failed
resolution runs `process.exit()` with no argument, which terminates the
process with exit code 0, not the claimed exit code 1. -/
theorem resolution_failure_exit_cex :
    mainModel envFail ⟨200, none, false, false, 3, 0, false⟩ 0 "missing".data =
      .exited 0 ∧ (0 : Nat) ≠ 1 :=
  ⟨rfl, by decide⟩

/-- C4 (amended): when package resolution fails, a top-level call
(`depths = argv.depths`) prints an error and terminates the process with
exit code 0 (`process.exit()` with no argument), while a recursive call
(which only arises with `argv.recursive` nonzero) returns an empty child
list so the parent can continue. -/
theorem resolution_failure_behavior (env : Env) (a : Args) (depths : Nat)
    (input : List Char)
    (hfail : env.pkgInfo (getPackageNameAndVersion input).1
      (versionOrLatest (getPackageNameAndVersion input).2) = none) :
    (depths = a.depths → mainModel env a depths input = .exited 0) ∧
    (depths ≠ a.depths → a.recursive ≠ 0 →
      mainModel env a depths input = .sub []) := by
  constructor
  · intro h
    subst h
    conv_lhs => rw [mainModel]
    simp [hfail]
  · intro h hr
    conv_lhs => rw [mainModel]
    simp [hfail, hr, Ne.symm h]

/-- Witness for C4 (amended): both branches at concrete inputs. -/
theorem resolution_failure_behavior_witness :
    (mainModel envFail ⟨200, none, false, false, 3, 0, false⟩ 0 "missing".data =
      .exited 0) ∧
    (mainModel envFail ⟨200, none, false, false, 3, 2, false⟩ 0 "missing".data =
      .sub []) :=
  ⟨(resolution_failure_behavior envFail ⟨200, none, false, false, 3, 0, false⟩
      0 "missing".data rfl).1 rfl,
   (resolution_failure_behavior envFail ⟨200, none, false, false, 3, 2, false⟩
      0 "missing".data rfl).2 (by decide) (by decide)⟩

/-- C5: the display count `number` and the recursion width `recursive`
are independent truncations: the recursion selection has exactly
`min recursive eligible` entries, the display selection never exceeds
`number` entries, with `number = 2`, `recursive = 5` and more than 5
eligible nodes exactly 5 nodes are selected for expansion while exactly
2 rows are displayed, and every successful recursive level expands
exactly the recursion selection of its scored node list. -/
theorem truncation_knobs (a : Args) (results : List Results) :
    (recursionSelect a results).length =
      min a.recursive
        (results.filter (fun r => filterExcludes a.exclude r.name)).length ∧
    (displaySelect a results).length ≤ a.number ∧
    (a.number = 2 → a.recursive = 5 → a.depths ≠ 0 →
      5 < (results.filter (fun r => filterExcludes a.exclude r.name)).length →
      (recursionSelect a results).length = 5 ∧
      (displaySelect a results).length = 2) ∧
    (∀ env d input info,
      env.pkgInfo (getPackageNameAndVersion input).1
        (versionOrLatest (getPackageNameAndVersion input).2) = some info →
      a.list = false → a.recursive ≠ 0 → Nat.succ d ≠ a.depths →
      mainModel env a (Nat.succ d) input =
        .sub ((recursionSelect a
            (scoredNodes env a info (getPackageNameAndVersion input))).map
          (fun r =>
            { r with children := childrenOf (mainModel env a d r.name) }))) := by
  refine ⟨?_, ?_, ?_, ?_⟩
  · rw [recursionSelect]
    exact List.length_take _ _
  · simp only [displaySelect]
    split
    · split <;> (simp only [List.length_take]; omega)
    · simp only [List.length_take]
      omega
  · intro h2 h5 hd hlen
    constructor
    · simp only [recursionSelect, List.length_take, h5]
      omega
    · simp only [displaySelect]
      rw [if_pos hd, if_pos (by omega : a.recursive ≠ 0)]
      simp only [List.length_take, h5, h2]
      omega
  · intro env d input info hinfo hlist hr hne
    rw [mainModel_some env a (Nat.succ d) input info hinfo hlist, if_pos hne,
      topResultsAt]
    simp [hr]

/-- Witness for C5: with `number = 2`, `recursive = 5` and six eligible
nodes, 5 are selected for expansion and 2 are displayed. -/
theorem truncation_knobs_witness :
    (recursionSelect argsT sixNodes).length = 5 ∧
    (displaySelect argsT sixNodes).length = 2 :=
  (truncation_knobs argsT sixNodes).2.2.1 rfl rfl (by decide) (by decide)

theorem at_mem_of_head (input : List Char) (h : input.head? = some '@') :
    '@' ∈ input := by
  cases input with
  | nil => simp at h
  | cons c t =>
    simp only [List.head?_cons, Option.some.injEq] at h
    subst h
    exact List.mem_cons_self _ _

/-- C6 counterexample: a non-scoped token with two `'@'`s is not split at
the first `'@'` into name and full remainder: for `"a@b@c"` the code
yields version `"b"`, not `"b@c"`. -/
theorem getPackageNameAndVersion_cex :
    getPackageNameAndVersion "a@b@c".data = ("a".data, some "b".data) ∧
    some "b".data ≠ some "b@c".data :=
  ⟨by rfl, by decide⟩

/-- C6 (amended): a token starting with `'@'` that has another `'@'`
later is split at the last `'@'` (name before, version after); a token
starting with `'@'` with no later `'@'` is all name; a token not
starting with `'@'` has its name before the first `'@'` and its version
between the first and second `'@'` (to the end if no second `'@'`,
undefined if no `'@'` at all); the four concrete examples hold. -/
theorem getPackageNameAndVersion_spec (input : List Char) :
    (input.head? = some '@' → '@' ∈ input.tail →
      ∃ name ver, input = name ++ '@' :: ver ∧ '@' ∉ ver ∧
        getPackageNameAndVersion input = (name, some ver)) ∧
    (input.head? = some '@' → '@' ∉ input.tail →
      getPackageNameAndVersion input = (input, none)) ∧
    (input.head? ≠ some '@' →
      getPackageNameAndVersion input =
        (input.takeWhile (fun c => c != '@'),
         if '@' ∈ input then
           some (((input.dropWhile (fun c => c != '@')).tail).takeWhile
             (fun c => c != '@'))
         else none)) ∧
    getPackageNameAndVersion "left-pad".data = ("left-pad".data, none) ∧
    getPackageNameAndVersion "left-pad@1.2.3".data =
      ("left-pad".data, some "1.2.3".data) ∧
    getPackageNameAndVersion "@babel/core@7.0.0".data =
      ("@babel/core".data, some "7.0.0".data) ∧
    getPackageNameAndVersion "@babel/core".data = ("@babel/core".data, none) := by
  refine ⟨?_, ?_, ?_, by rfl, by rfl, by rfl, by rfl⟩
  · intro h1 h2
    obtain ⟨k, hk, hdec, hnot⟩ :=
      (lastIndexOf_spec '@' input).2 (at_mem_of_head input h1)
    have hk0 : k ≠ 0 := by
      intro h0
      subst h0
      rw [List.take_zero, List.nil_append] at hdec
      rw [hdec] at h2
      simp only [List.tail_cons] at h2
      exact hnot (by simpa using h2)
    refine ⟨input.take k, input.drop (k + 1), hdec, hnot, ?_⟩
    simp only [getPackageNameAndVersion]
    rw [if_pos h1, hk, if_neg (by exact_mod_cast hk0)]
    simp
  · intro h1 h2
    cases input with
    | nil => simp at h1
    | cons c t =>
      simp only [List.head?_cons, Option.some.injEq] at h1
      subst h1
      simp only [List.tail_cons] at h2
      obtain ⟨k, hk, hdec, hnot⟩ :=
        (lastIndexOf_spec '@' ('@' :: t)).2 (List.mem_cons_self '@' t)
      have hk0 : k = 0 := by
        by_contra hne
        obtain ⟨m, rfl⟩ := Nat.exists_eq_succ_of_ne_zero hne
        rw [List.take_succ_cons, List.drop_succ_cons, List.cons_append,
          List.cons.injEq] at hdec
        exact h2 (hdec.2 ▸ List.mem_append_right _ (List.mem_cons_self '@' _))
      subst hk0
      simp [getPackageNameAndVersion, hk]
  · intro h
    simp only [getPackageNameAndVersion]
    rw [if_neg h, jsSplit_head, jsSplit_second]

/-- Witness for C6 (amended): the non-scoped clause at `"a@b@c"`. -/
theorem getPackageNameAndVersion_spec_witness :
    getPackageNameAndVersion "a@b@c".data =
      ("a@b@c".data.takeWhile (fun c => c != '@'),
       if '@' ∈ "a@b@c".data then
         some ((("a@b@c".data.dropWhile (fun c => c != '@')).tail).takeWhile
           (fun c => c != '@'))
       else none) :=
  (getPackageNameAndVersion_spec "a@b@c".data).2.2.1 (by decide)

/-- C7: a dependent absent from the download-stats mapping joins to a
node with downloads 0 and traffic 0; every scored node's downloads is
the defaulted `stats[name] ?? 0`, so the join is total and never
undefined. -/
theorem missing_stats_zero (env : Env) (a : Args) (info : PkgInfo)
    (nv : List Char × Option (List Char)) :
    ∀ n ∈ scoredNodes env a info nv,
      n.downloads = (env.downloads n.name).getD 0 ∧
      (env.downloads n.name = none → n.downloads = 0 ∧ n.traffic = 0) := by
  intro n hn
  rw [scoredNodes] at hn
  rcases List.mem_map.mp ((sortResults_perm _).mem_iff.mp hn) with ⟨dep, hdep, rfl⟩
  refine ⟨rfl, fun h => ?_⟩
  simp only [buildNode] at h
  exact ⟨by simp [buildNode, h], by simp [buildNode, h]⟩

/-- Witness for C7: node `bar` of `envW` has no stats entry and scores
downloads 0 and traffic 0. -/
theorem missing_stats_zero_witness :
    ((⟨"bar".data, 0, 0, false, [], "*".data⟩ : Results).downloads =
      (envW.downloads "bar".data).getD 0) ∧
    (envW.downloads "bar".data = none →
      (⟨"bar".data, 0, 0, false, [], "*".data⟩ : Results).downloads = 0 ∧
      (⟨"bar".data, 0, 0, false, [], "*".data⟩ : Results).traffic = 0) :=
  missing_stats_zero envW argsW ⟨"1.0.0".data, some 4⟩ ("pkg".data, none)
    ⟨"bar".data, 0, 0, false, [], "*".data⟩
    (List.mem_cons_of_mem _ (List.mem_cons_self _ _))

/-- C8: with the list flag set, `main` prints one `d.value` record per
filtered dependent — the whole name-and-version pair, not the bare
name — and returns before the download-stats fetch: the outcome does not
depend on the stats mapping at all. The repository README documents
`--list` as printing names only, so printing the record is a code bug. -/
theorem list_flag_prints_value_records :
    mainModel envW argsL 0 "pkg".data =
      .listed [⟨"foo".data, "^1.0.0".data⟩, ⟨"bar".data, "*".data⟩] ∧
    (∀ dl dl' : List Char → Option Nat,
      mainModel { envW with downloads := dl } argsL 0 "pkg".data =
      mainModel { envW with downloads := dl' } argsL 0 "pkg".data) ∧
    ("^1.0.0".data : List Char) ≠ [] :=
  ⟨rfl, fun dl dl' => rfl, by decide⟩

/-- C9: an empty entry among the comma-split exclude substrings drops
every node — every name contains the empty substring — so the exclude
filter rejects everything and both the display selection and the
recursion selection come out empty. -/
theorem empty_exclude_drops_all (ex : List Char) (h : [] ∈ jsSplit ',' ex) :
    (∀ name, filterExcludes (some ex) name = false) ∧
    (∀ a results, a.exclude = some ex →
      displaySelect a results = [] ∧ recursionSelect a results = []) := by
  have hfe : ∀ name, filterExcludes (some ex) name = false := by
    intro name
    rw [filterExcludes]
    exact List.all_eq_false.mpr ⟨[], h, by simp [hasSub_nil]⟩
  refine ⟨hfe, fun a results ha => ?_⟩
  have hfil : results.filter (fun r => filterExcludes a.exclude r.name) = [] :=
    List.filter_eq_nil_iff.mpr (fun r _ => by simp [ha, hfe])
  constructor
  · simp only [displaySelect, hfil, List.take_nil]
    split <;> simp
  · simp only [recursionSelect, hfil, List.take_nil]

/-- Witness for C9: exclude value `"foo,"` (trailing comma) empties a
concrete selection. -/
theorem empty_exclude_drops_all_witness :
    filterExcludes (some "foo,".data) "react".data = false ∧
    displaySelect ⟨2, some "foo,".data, false, false, 5, 1, false⟩
      [⟨"react".data, 9, 0, false, [], "".data⟩] = [] :=
  ⟨(empty_exclude_drops_all "foo,".data (by decide)).1 "react".data,
   ((empty_exclude_drops_all "foo,".data (by decide)).2
     ⟨2, some "foo,".data, false, false, 5, 1, false⟩
     [⟨"react".data, 9, 0, false, [], "".data⟩] rfl).1⟩

end E18e
